import Mathlib

/-!
Verification of the page-assignment and document-rendering engine of
`src/photo_grid_android.py` (class `PhotoGridApp`).

The Python program keeps its state in
  * `self.photos`        : ordered list of photo paths (Ordered Photo Sequence),
  * `self.page_photos`   : dict from `"{page}_{slot}"` keys to photo paths,
  * `self.page_captions` : dict from the same keys to caption strings,
  * `self.page_titles`   : dict from page index to title string,
  * `self.photos_per_page` / `self.grid_layout_type` : current layout.

We embed the composite string key `"{page}_{slot}"` as the pair
`(page, slot) : Nat × Nat`; the program always sorts such keys by
`(int(page), int(slot))`, i.e. lexicographically by page then slot, which is
exactly the lexicographic order on the pair.  Python dicts are embedded as
association lists in insertion order; dict lookup, deletion and assignment
become `lookupC`, `eraseC` and key-shadowing cons.
-/

namespace PhotoGrid

/-- A `(page_index, slot_index)` coordinate, the parsed form of the program's
`"{page}_{slot}"` dictionary keys. -/
abbrev Coord : Type := Nat × Nat

/-- Association list embedding of a Python dict with keys of type `κ`. -/
abbrev AList (κ α : Type) : Type := List (κ × α)

/-- Python `d[k]` / `k in d` / `d.get(k, …)`: first (and, for states with
distinct keys, only) binding of `k`. -/
def lookupC {κ α : Type} [DecidableEq κ] (k : κ) : AList κ α → Option α
  | [] => none
  | (k', v) :: t => if k = k' then some v else lookupC k t

/-- Python `del d[k]`: drop the binding of `k` (the first one; program states
never bind a key twice). -/
def eraseC {κ α : Type} [DecidableEq κ] (k : κ) : AList κ α → AList κ α
  | [] => []
  | (k', v) :: t => if k = k' then t else (k', v) :: eraseC k t

/-- Python `lst.remove(x)` (guarded by `x in lst` in the source): remove the
first occurrence of `x`, or leave the list unchanged when absent. -/
def removeFirst {α : Type} [DecidableEq α] (x : α) : List α → List α
  | [] => []
  | y :: t => if y = x then t else y :: removeFirst x t

/-- The keys of a dict, in their list order. -/
def keysOf {κ α : Type} (l : AList κ α) : List κ := l.map Prod.fst

/-- The sort key `(int(k.split('_')[0]), int(k.split('_')[1]))` used by
`sorted(...)` in `change_layout`, `update_all_captions_with_prefix` and
`generate_word_document`: lexicographic page-then-slot order. -/
def coordLe (a b : Coord) : Prop := a.1 < b.1 ∨ (a.1 = b.1 ∧ a.2 ≤ b.2)

instance : DecidablePred (fun p : Coord × Coord => coordLe p.1 p.2) :=
  fun _ => by unfold coordLe; infer_instance

instance coordLe.dec (a b : Coord) : Decidable (coordLe a b) := by
  unfold coordLe; infer_instance

/-- One insertion step of a stable insertion sort by `coordLe`. -/
def insertKey (k : Coord) : List Coord → List Coord
  | [] => [k]
  | k' :: t => if coordLe k k' then k :: k' :: t else k' :: insertKey k t

/-- Embedding of Python's `sorted(keys, key=λk. (page k, slot k))`: a sort of
the key list by page-then-slot order (insertion sort; the keys of a dict are
distinct, so any sort by this total order yields the same list). -/
def sortKeys (l : List Coord) : List Coord := l.foldr insertKey []

/-- `enumerate` starting at `n`. -/
def enumFromN {α : Type} (n : Nat) : List α → List (Nat × α)
  | [] => []
  | a :: t => (n, a) :: enumFromN (n + 1) t

/-- Python `enumerate(l)`. -/
def enumL {α : Type} (l : List α) : List (Nat × α) := enumFromN 0 l

/-- The ordinal→coordinate conversion used at every distribution site of the
program (`idx // photos_per_page`, `idx % photos_per_page`): lines 360–363 of
`change_layout` and lines 894–897 of `generate_word_document`. -/
def toCoordinate (ordinal capacity : Nat) : Coord :=
  (ordinal / capacity, ordinal % capacity)

/-- The inverse linearization `page * capacity + slot` (the sequential photo
number of line 1059, `page_num * photos_per_page + grid_idx`). -/
def toOrdinal (c : Coord) (capacity : Nat) : Nat := c.1 * capacity + c.2

/-- **C4** — For every capacity `C ∈ {2,4}` and every ordinal `n ≥ 0`, the
ordinal-to-coordinate conversion used by the program yields
`(n div C, n mod C)`, whose slot index is always `< C`, and converting that
coordinate back via `page*C + slot` recovers `n`. -/
theorem toCoordinate_toOrdinal_roundtrip (C n : Nat) (hC : C = 2 ∨ C = 4) :
    toCoordinate n C = (n / C, n % C) ∧
    toOrdinal (toCoordinate n C) C = n ∧
    (toCoordinate n C).2 < C := by
  have hCpos : 0 < C := by rcases hC with h | h <;> omega
  refine ⟨rfl, ?_, Nat.mod_lt _ hCpos⟩
  simp only [toCoordinate, toOrdinal]
  exact Nat.div_add_mod' n C

/-- Witness for C4 at `C = 4`, `n = 7`. -/
theorem toCoordinate_toOrdinal_roundtrip_witness :
    (4 = 2 ∨ 4 = 4) ∧
    (toCoordinate 7 4 = (7 / 4, 7 % 4) ∧
      toOrdinal (toCoordinate 7 4) 4 = 7 ∧ (toCoordinate 7 4).2 < 4) :=
  ⟨by decide, toCoordinate_toOrdinal_roundtrip 4 7 (by decide)⟩

/-! ### Basic lemmas about the dict embedding -/

theorem lookupC_mem {κ α : Type} [DecidableEq κ] {k : κ} {v : α} :
    ∀ {l : AList κ α}, lookupC k l = some v → (k, v) ∈ l := by
  intro l h
  induction l with
  | nil => simp [lookupC] at h
  | cons kv t ih =>
    obtain ⟨k', v'⟩ := kv
    by_cases hk : k = k'
    · simp [lookupC, hk] at h
      simp [hk, h]
    · simp [lookupC, hk] at h
      exact List.mem_cons_of_mem _ (ih h)

theorem lookupC_isSome_of_mem {κ α : Type} [DecidableEq κ] {k : κ} {v : α} :
    ∀ {l : AList κ α}, (k, v) ∈ l → ∃ w, lookupC k l = some w := by
  intro l h
  induction l with
  | nil => simp at h
  | cons kv t ih =>
    obtain ⟨k', v'⟩ := kv
    by_cases hk : k = k'
    · exact ⟨v', by simp [lookupC, hk]⟩
    · rcases List.mem_cons.mp h with h' | h'
      · cases h'; simp at hk
      · obtain ⟨w, hw⟩ := ih h'
        exact ⟨w, by simp [lookupC, hk, hw]⟩

theorem lookupC_eq_none_of_not_mem_keys {κ α : Type} [DecidableEq κ] {k : κ} :
    ∀ {l : AList κ α}, k ∉ keysOf l → lookupC k l = none := by
  intro l h
  induction l with
  | nil => rfl
  | cons kv t ih =>
    obtain ⟨k', v'⟩ := kv
    simp [keysOf] at h
    simp [lookupC, h.1, ih (by simp [keysOf, h.2])]

theorem lookupC_append {κ α : Type} [DecidableEq κ] (k : κ) :
    ∀ (l₁ l₂ : AList κ α), lookupC k (l₁ ++ l₂) =
      (match lookupC k l₁ with
        | some v => some v
        | none => lookupC k l₂) := by
  intro l₁ l₂
  induction l₁ with
  | nil => simp [lookupC]
  | cons kv t ih =>
    obtain ⟨k', v'⟩ := kv
    by_cases hk : k = k' <;> simp [lookupC, hk, ih]

theorem mem_of_mem_eraseC {κ α : Type} [DecidableEq κ] {k : κ} {kv : κ × α} :
    ∀ {l : AList κ α}, kv ∈ eraseC k l → kv ∈ l := by
  intro l h
  induction l with
  | nil => simp [eraseC] at h
  | cons kv' t ih =>
    obtain ⟨k', v'⟩ := kv'
    by_cases hk : k = k'
    · simp [eraseC, hk] at h
      exact List.mem_cons_of_mem _ h
    · simp [eraseC, hk] at h
      rcases h with h | h
      · simp [h]
      · exact List.mem_cons_of_mem _ (ih h)

theorem not_mem_keys_eraseC {κ α : Type} [DecidableEq κ] {k : κ} :
    ∀ {l : AList κ α}, (keysOf l).Nodup → k ∉ keysOf (eraseC k l) := by
  intro l hnd
  induction l with
  | nil => simp [eraseC, keysOf]
  | cons kv t ih =>
    obtain ⟨k', v'⟩ := kv
    have hcons : keysOf ((k', v') :: t) = k' :: keysOf t := rfl
    rw [hcons, List.nodup_cons] at hnd
    by_cases hk : k = k'
    · subst hk
      rw [eraseC, if_pos rfl]
      exact hnd.1
    · rw [eraseC, if_neg hk]
      have hcons' : keysOf ((k', v') :: eraseC k t) = k' :: keysOf (eraseC k t) := rfl
      rw [hcons']
      intro hmem
      rcases List.mem_cons.mp hmem with h | h
      · exact hk h
      · exact ih hnd.2 h

theorem lookupC_eraseC_self {κ α : Type} [DecidableEq κ] {k : κ}
    {l : AList κ α} (hnd : (keysOf l).Nodup) : lookupC k (eraseC k l) = none :=
  lookupC_eq_none_of_not_mem_keys (not_mem_keys_eraseC hnd)

theorem not_mem_removeFirst {α : Type} [DecidableEq α] {x : α} :
    ∀ {l : List α}, l.count x ≤ 1 → x ∉ removeFirst x l := by
  intro l h
  induction l with
  | nil => simp [removeFirst]
  | cons y t ih =>
    by_cases hy : y = x
    · subst hy
      simp [List.count_cons] at h
      simp [removeFirst]
      intro hx
      exact absurd (List.count_pos_iff.mpr hx) (by omega)
    · simp [List.count_cons, hy] at h
      simp [removeFirst, hy]
      exact ⟨fun hxy => hy hxy.symm, ih h⟩

/-! ### Lemmas about `enumFromN` (the embedding of `enumerate`) -/

theorem enumFromN_append {α : Type} (n : Nat) (l₁ l₂ : List α) :
    enumFromN n (l₁ ++ l₂) = enumFromN n l₁ ++ enumFromN (n + l₁.length) l₂ := by
  induction l₁ generalizing n with
  | nil => simp [enumFromN]
  | cons a t ih =>
    have h : n + 1 + t.length = n + (t.length + 1) := by omega
    simp only [List.cons_append, enumFromN, List.append_eq, ih (n + 1), List.length_cons]
    rw [h]

theorem enumFromN_map {α β : Type} (f : α → β) (n : Nat) :
    ∀ (l : List α), enumFromN n (l.map f) =
      (enumFromN n l).map (fun p => (p.1, f p.2)) := by
  intro l
  induction l generalizing n with
  | nil => simp [enumFromN]
  | cons a t ih => simp [enumFromN, ih (n + 1)]

theorem enumL_range (N : Nat) :
    enumL (List.range N) = (List.range N).map (fun i => (i, i)) := by
  induction N with
  | zero => rfl
  | succ n ih =>
    rw [List.range_succ]
    simp only [enumL] at ih ⊢
    rw [enumFromN_append, List.length_range, ih]
    simp [enumFromN]

theorem snd_mem_of_mem_enumFromN {α : Type} {i : Nat} {a : α} :
    ∀ {n : Nat} {l : List α}, (i, a) ∈ enumFromN n l → a ∈ l := by
  intro n l h
  induction l generalizing n with
  | nil => simp [enumFromN] at h
  | cons b t ih =>
    simp [enumFromN] at h
    rcases h with ⟨-, h⟩ | h
    · simp [h]
    · exact List.mem_cons_of_mem _ (ih h)

theorem mem_enumFromN_of_getElem? {α : Type} {l : List α} {i : Nat} {a : α}
    (h : l[i]? = some a) : ∀ (n : Nat), (n + i, a) ∈ enumFromN n l := by
  induction l generalizing i with
  | nil => simp at h
  | cons b t ih =>
    intro n
    cases i with
    | zero =>
      simp at h
      simp [enumFromN, h]
    | succ j =>
      simp at h
      have := ih h (n + 1)
      have harith : n + 1 + j = n + (j + 1) := by omega
      rw [harith] at this
      exact List.mem_cons_of_mem _ this

theorem map_snd_enumFromN {α : Type} :
    ∀ (n : Nat) (l : List α), (enumFromN n l).map Prod.snd = l := by
  intro n l
  induction l generalizing n with
  | nil => rfl
  | cons a t ih => simp [enumFromN, ih (n + 1)]

/-! ### Lemmas about `sortKeys` -/

theorem coordLe_total (a b : Coord) : coordLe a b ∨ coordLe b a := by
  unfold coordLe; omega

theorem mem_insertKey {x k : Coord} :
    ∀ {l : List Coord}, x ∈ insertKey k l ↔ x = k ∨ x ∈ l := by
  intro l
  induction l with
  | nil => simp [insertKey]
  | cons k' t ih =>
    by_cases h : coordLe k k'
    · simp [insertKey, h]
    · simp [insertKey, h, ih]
      tauto

theorem pairwise_insertKey {k : Coord} :
    ∀ {l : List Coord}, l.Pairwise coordLe → (insertKey k l).Pairwise coordLe := by
  intro l h
  induction l with
  | nil => simp [insertKey]
  | cons k' t ih =>
    rw [List.pairwise_cons] at h
    by_cases hle : coordLe k k'
    · rw [insertKey, if_pos hle, List.pairwise_cons]
      refine ⟨?_, List.pairwise_cons.mpr h⟩
      intro x hx
      rcases List.mem_cons.mp hx with h' | h'
      · simp [h', hle]
      · rcases coordLe_total k x with h'' | h''
        · exact h''
        · have := h.1 x h'
          unfold coordLe at *
          omega
    · rw [insertKey, if_neg hle, List.pairwise_cons]
      refine ⟨?_, ih h.2⟩
      intro x hx
      rcases mem_insertKey.mp hx with h' | h'
      · subst h'
        rcases coordLe_total k' x with h'' | h''
        · exact h''
        · exact absurd h'' hle
      · exact h.1 x h'

theorem perm_insertKey (k : Coord) :
    ∀ (l : List Coord), (insertKey k l).Perm (k :: l) := by
  intro l
  induction l with
  | nil => simp [insertKey]
  | cons k' t ih =>
    by_cases h : coordLe k k'
    · simp [insertKey, h]
    · rw [insertKey, if_neg h]
      exact (List.Perm.cons k' ih).trans (List.Perm.swap k k' t)

theorem pairwise_sortKeys (l : List Coord) : (sortKeys l).Pairwise coordLe := by
  induction l with
  | nil => simp [sortKeys]
  | cons k t ih => exact pairwise_insertKey ih

theorem perm_sortKeys : ∀ (l : List Coord), (sortKeys l).Perm l := by
  intro l
  induction l with
  | nil => simp [sortKeys]
  | cons k t ih =>
    have : sortKeys (k :: t) = insertKey k (sortKeys t) := rfl
    rw [this]
    exact (perm_insertKey k (sortKeys t)).trans (List.Perm.cons k ih)

theorem insertKey_of_le_head {k : Coord} :
    ∀ {l : List Coord}, (∀ x, l.head? = some x → coordLe k x) →
      insertKey k l = k :: l := by
  intro l h
  cases l with
  | nil => rfl
  | cons k' t => simp [insertKey, h k' rfl]

/-- A list that is already sorted (consecutively) by page-then-slot order is
left unchanged by `sortKeys`. -/
theorem sortKeys_of_chain :
    ∀ {l : List Coord}, l.Chain' coordLe → sortKeys l = l := by
  intro l h
  induction l with
  | nil => rfl
  | cons k t ih =>
    have hstep : sortKeys (k :: t) = insertKey k (sortKeys t) := rfl
    rw [hstep, ih (List.Chain'.tail h)]
    apply insertKey_of_le_head
    intro x hx
    cases t with
    | nil => simp at hx
    | cons k' t' =>
      simp at hx
      subst hx
      exact (List.chain'_cons.mp h).1

/-! ### Generic `filterMap` helpers -/

theorem filterMap_eq_map_of {α β : Type} (h : α → Option β) (h' : α → β) :
    ∀ (l : List α), (∀ a ∈ l, h a = some (h' a)) → l.filterMap h = l.map h' := by
  intro l hl
  induction l with
  | nil => rfl
  | cons a t ih =>
    rw [List.filterMap_cons, hl a (by simp), List.map_cons,
      ih (fun x hx => hl x (List.mem_cons_of_mem _ hx))]

theorem filterMap_congr_of {α β : Type} {h h' : α → Option β} :
    ∀ {l : List α}, (∀ a ∈ l, h a = h' a) → l.filterMap h = l.filterMap h' := by
  intro l hl
  induction l with
  | nil => rfl
  | cons a t ih =>
    rw [List.filterMap_cons, List.filterMap_cons, hl a (by simp),
      ih (fun x hx => hl x (List.mem_cons_of_mem _ hx))]

theorem filterMap_map_comp {α β γ : Type} (f : α → β) (g : β → Option γ) :
    ∀ (l : List α), (l.map f).filterMap g = l.filterMap (fun a => g (f a)) := by
  intro l
  induction l with
  | nil => rfl
  | cons a t ih => rw [List.map_cons, List.filterMap_cons, List.filterMap_cons, ih]

/-! ### Canonical assignment states

`photosOfState C N f` is the Assignment Store that results from distributing
the `N` photos `f 0, …, f (N-1)` over coordinates under page capacity `C`,
photo `i` landing at `(i div C, i mod C)` — exactly the distribution loops of
`change_layout` (lines 360–367) and `generate_word_document` (lines 894–905).
`capsOfState C N g` is the corresponding caption store, holding a caption
entry at photo `i`'s coordinate exactly when `g i = some c`. -/

def photosOfState (C N : Nat) (f : Nat → String) : AList Coord String :=
  (List.range N).map (fun i => (toCoordinate i C, f i))

def capsOfState (C N : Nat) (g : Nat → Option String) : AList Coord String :=
  (List.range N).filterMap (fun i => (g i).map (fun c => (toCoordinate i C, c)))

theorem toCoordinate_inj {C i j : Nat} (h : toCoordinate i C = toCoordinate j C) :
    i = j := by
  simp only [toCoordinate, Prod.mk.injEq] at h
  have hi := Nat.div_add_mod i C
  have hj := Nat.div_add_mod j C
  rw [h.1, h.2] at hi
  omega

theorem coordLe_toCoordinate {C i j : Nat} (hij : i ≤ j) :
    coordLe (toCoordinate i C) (toCoordinate j C) := by
  unfold coordLe toCoordinate
  simp only
  have hdiv : i / C ≤ j / C := Nat.div_le_div_right hij
  rcases Nat.lt_or_ge (i / C) (j / C) with h | h
  · exact Or.inl h
  · have heq : i / C = j / C := by omega
    have hi := Nat.div_add_mod i C
    have hj := Nat.div_add_mod j C
    right
    refine ⟨heq, ?_⟩
    rw [heq] at hi
    omega

theorem chain_keys_canonical (C N : Nat) :
    (((List.range N).map (fun i => toCoordinate i C))).Chain' coordLe := by
  apply List.Pairwise.chain'
  apply List.Pairwise.map
  · intro a b (hab : a < b)
    exact coordLe_toCoordinate (Nat.le_of_lt hab)
  · exact List.pairwise_lt_range N

/-- Looking up photo `i`'s coordinate in a canonically distributed sparse
store recovers exactly the value attached to `i`. -/
theorem lookupC_canonical {α : Type} (C N i : Nat) (v : Nat → Option α)
    (hi : i < N) :
    lookupC (toCoordinate i C)
      ((List.range N).filterMap (fun j => (v j).map (fun x => (toCoordinate j C, x))))
      = v i := by
  induction N with
  | zero => omega
  | succ n ih =>
    rw [List.range_succ, List.filterMap_append, lookupC_append]
    rcases Nat.lt_or_ge i n with hin | hin
    · rw [ih hin]
      cases hv : v i with
      | some x => rfl
      | none =>
        simp only [List.filterMap_cons, List.filterMap_nil]
        cases hvn : v n with
        | none => rfl
        | some y =>
          simp only [Option.map_some, lookupC]
          rw [if_neg (fun h => absurd (toCoordinate_inj h) (by omega : ¬i = n))]
    · have hieq : i = n := by omega
      subst hieq
      have hnone : lookupC (toCoordinate i C)
          ((List.range i).filterMap (fun j => (v j).map (fun x => (toCoordinate j C, x)))) = none := by
        apply lookupC_eq_none_of_not_mem_keys
        intro hmem
        simp only [keysOf, List.mem_map] at hmem
        obtain ⟨⟨k, x⟩, hkx, hfst⟩ := hmem
        rw [List.mem_filterMap] at hkx
        obtain ⟨j, hj, hjx⟩ := hkx
        rw [List.mem_range] at hj
        rw [Option.map_eq_some'] at hjx
        obtain ⟨y, hvy, hy⟩ := hjx
        have hk : k = toCoordinate j C := by
          simpa using (congrArg Prod.fst hy).symm
        subst hk
        simp only at hfst
        exact absurd (toCoordinate_inj hfst) (by omega)
      rw [hnone]
      simp only [List.filterMap_cons, List.filterMap_nil]
      cases hv : v i with
      | none => rfl
      | some x => simp [lookupC]

theorem photosOfState_eq_filterMap (C N : Nat) (f : Nat → String) :
    photosOfState C N f =
      (List.range N).filterMap
        (fun j => (some (f j)).map (fun x => (toCoordinate j C, x))) := by
  unfold photosOfState
  exact (filterMap_eq_map_of _ _ _ (fun a _ => rfl)).symm

theorem lookupC_photosOfState (C N i : Nat) (f : Nat → String) (hi : i < N) :
    lookupC (toCoordinate i C) (photosOfState C N f) = some (f i) := by
  rw [photosOfState_eq_filterMap]
  exact lookupC_canonical C N i (fun j => some (f j)) hi

theorem lookupC_capsOfState (C N i : Nat) (g : Nat → Option String) (hi : i < N) :
    lookupC (toCoordinate i C) (capsOfState C N g) = g i :=
  lookupC_canonical C N i g hi

theorem keysOf_photosOfState (C N : Nat) (f : Nat → String) :
    keysOf (photosOfState C N f) = (List.range N).map (fun i => toCoordinate i C) := by
  unfold keysOf photosOfState
  rw [List.map_map]
  rfl

/-! ### `change_layout` (lines 318–378)

On a layout switch the program collects all `(photo, caption)` pairs in
sorted page-then-slot key order (an absent caption is read as `''` via
`.get(key, '')`), clears both dicts, and re-inserts pair `idx` at coordinate
`(idx div newCap, idx mod newCap)`; the caption is re-inserted only when it
is a non-empty string (`if caption:`).  Nothing happens when the capacity is
unchanged. -/

def change_layout (newCap oldCap : Nat) (photos captions : AList Coord String) :
    AList Coord String × AList Coord String :=
  if oldCap = newCap then (photos, captions)
  else
    let pairs : List (String × String) :=
      (sortKeys (keysOf photos)).filterMap
        (fun k => (lookupC k photos).map
          (fun p => (p, (lookupC k captions).getD "")))
    ((enumL pairs).map (fun ip => (toCoordinate ip.1 newCap, ip.2.1)),
     (enumL pairs).filterMap
       (fun ip => if ip.2.2 = "" then none
         else some (toCoordinate ip.1 newCap, ip.2.2)))

/-- Reconciling a canonically distributed state from capacity `C` to a
different capacity `C'` redistributes the same photos canonically under `C'`,
preserving every non-empty caption at its ordinal position. -/
theorem change_layout_canonical (C C' N : Nat) (hne : C ≠ C')
    (f : Nat → String) (g : Nat → Option String) (hg : ∀ i, g i ≠ some "") :
    change_layout C' C (photosOfState C N f) (capsOfState C N g) =
      (photosOfState C' N f, capsOfState C' N g) := by
  unfold change_layout
  rw [if_neg hne]
  have hkeys : sortKeys (keysOf (photosOfState C N f)) =
      (List.range N).map (fun i => toCoordinate i C) := by
    rw [keysOf_photosOfState]
    exact sortKeys_of_chain (chain_keys_canonical C N)
  have hpairs : (sortKeys (keysOf (photosOfState C N f))).filterMap
      (fun k => (lookupC k (photosOfState C N f)).map
        (fun p => (p, (lookupC k (capsOfState C N g)).getD ""))) =
      (List.range N).map (fun i => (f i, (g i).getD "")) := by
    rw [hkeys, filterMap_map_comp]
    apply filterMap_eq_map_of
    intro i hi
    rw [List.mem_range] at hi
    rw [lookupC_photosOfState C N i f hi, lookupC_capsOfState C N i g hi]
    rfl
  simp only [hpairs]
  have henum : enumL ((List.range N).map (fun i => (f i, (g i).getD ""))) =
      (List.range N).map (fun i => (i, (f i, (g i).getD ""))) := by
    rw [enumL, enumFromN_map, ← enumL, enumL_range, List.map_map]
    rfl
  rw [henum]
  rw [Prod.mk.injEq]
  constructor
  · rw [List.map_map]
    rfl
  · rw [filterMap_map_comp]
    unfold capsOfState
    apply filterMap_congr_of
    intro i _
    simp only
    cases hgi : g i with
    | none => simp
    | some c =>
      have hc : c ≠ "" := fun h => hg i (by rw [hgi, h])
      simp [hc]

/-- **C1 (amended)** — For every assignment state built from `N` photos
assigned under capacity 4 with arbitrary captions in which every present
caption entry is non-empty, reconciling the layout to capacity 2 and then
back to capacity 4 restores exactly the original coordinate-to-photo mapping
and the original caption store, each caption at its original relative
ordinal position (the page-then-slot linearization order is stable).  The
nonemptiness proviso is forced by `change_layout`'s `if caption:` guard:
a present empty-string caption entry is dropped by reconciliation. -/
theorem change_layout_roundtrip (N : Nat) (f : Nat → String)
    (g : Nat → Option String) (hg : ∀ i, g i ≠ some "") :
    change_layout 4 2
        (change_layout 2 4 (photosOfState 4 N f) (capsOfState 4 N g)).1
        (change_layout 2 4 (photosOfState 4 N f) (capsOfState 4 N g)).2 =
      (photosOfState 4 N f, capsOfState 4 N g) := by
  rw [change_layout_canonical 4 2 N (by decide) f g hg]
  exact change_layout_canonical 2 4 N (by decide) f g hg

/-- A concrete three-photo assignment. -/
def photoFun3 : Nat → String := fun i => if i = 0 then "a" else if i = 1 then "b" else "c"

/-- A concrete caption assignment: only photo 1 has a (non-empty) caption. -/
def capFun3 : Nat → Option String := fun i => if i = 1 then some "Photo 2" else none

/-- Witness for C1 (amended) at a concrete three-photo state with one
present caption. -/
theorem change_layout_roundtrip_witness :
    (∀ i, capFun3 i ≠ some "") ∧
    change_layout 4 2
        (change_layout 2 4 (photosOfState 4 3 photoFun3) (capsOfState 4 3 capFun3)).1
        (change_layout 2 4 (photosOfState 4 3 photoFun3) (capsOfState 4 3 capFun3)).2 =
      (photosOfState 4 3 photoFun3, capsOfState 4 3 capFun3) :=
  have h : ∀ i, capFun3 i ≠ some "" := by
    intro i
    unfold capFun3
    split <;> simp
  ⟨h, change_layout_roundtrip 3 photoFun3 capFun3 h⟩

/-- **C1 (counterexample)** — the claim as stated fails for a state holding
a present empty-string caption: one photo at `(0,0)` with caption entry `""`
loses that caption entry across the 4 → 2 → 4 round trip (the photo mapping
itself is restored). -/
theorem change_layout_roundtrip_counterexample :
    lookupC ((0, 0) : Coord)
        (change_layout 4 2
          (change_layout 2 4 [(((0, 0) : Coord), "p")] [(((0, 0) : Coord), "")]).1
          (change_layout 2 4 [(((0, 0) : Coord), "p")] [(((0, 0) : Coord), "")]).2).2
      = none ∧
    lookupC ((0, 0) : Coord) [(((0, 0) : Coord), "")] = some "" ∧
    lookupC ((0, 0) : Coord)
        (change_layout 4 2
          (change_layout 2 4 [(((0, 0) : Coord), "p")] [(((0, 0) : Coord), "")]).1
          (change_layout 2 4 [(((0, 0) : Coord), "p")] [(((0, 0) : Coord), "")]).2).1
      = some "p" := by
  decide

/-! ### Pre-render gap-fill (`generate_word_document`, lines 894–905)

Before rendering, the program walks `enumerate(self.photos)` and, for each
ordinal `idx`, computes the coordinate `(idx div cap, idx mod cap)`; if that
coordinate has no photo assigned it assigns the photo there, and additionally
sets the default caption `f'{prefix} {idx+1}'` when no caption entry exists
at that coordinate.  Existing photo and caption entries are never touched. -/

def gapStep (cap : Nat) (pfx : String)
    (st : AList Coord String × AList Coord String) (ia : Nat × String) :
    AList Coord String × AList Coord String :=
  let key := toCoordinate ia.1 cap
  match lookupC key st.1 with
  | some _ => st
  | none =>
    ((key, ia.2) :: st.1,
     match lookupC key st.2 with
     | some _ => st.2
     | none => (key, pfx ++ " " ++ toString (ia.1 + 1)) :: st.2)

def gapFill (cap : Nat) (pfx : String) (photoSeq : List String)
    (photos captions : AList Coord String) :
    AList Coord String × AList Coord String :=
  (enumL photoSeq).foldl (gapStep cap pfx) (photos, captions)

theorem gapFold_preserves (cap : Nat) (pfx : String)
    (pairs : List (Nat × String)) :
    ∀ (st : AList Coord String × AList Coord String) (c : Coord),
      (∀ p, lookupC c st.1 = some p →
        lookupC c (pairs.foldl (gapStep cap pfx) st).1 = some p) ∧
      (∀ t, lookupC c st.2 = some t →
        lookupC c (pairs.foldl (gapStep cap pfx) st).2 = some t) := by
  induction pairs with
  | nil => exact fun st c => ⟨fun p hp => hp, fun t ht => ht⟩
  | cons ia rest ih =>
    intro st c
    rw [List.foldl_cons]
    constructor
    · intro p hp
      apply (ih (gapStep cap pfx st ia) c).1
      cases hk : lookupC (toCoordinate ia.1 cap) st.1 with
      | some q => simp only [gapStep, hk]; exact hp
      | none =>
        simp only [gapStep, hk, lookupC]
        rw [if_neg (fun hc => by rw [hc, hk] at hp; exact Option.noConfusion hp)]
        exact hp
    · intro t ht
      apply (ih (gapStep cap pfx st ia) c).2
      cases hk : lookupC (toCoordinate ia.1 cap) st.1 with
      | some q => simp only [gapStep, hk]; exact ht
      | none =>
        cases hk2 : lookupC (toCoordinate ia.1 cap) st.2 with
        | some q => simp only [gapStep, hk, hk2]; exact ht
        | none =>
          simp only [gapStep, hk, hk2, lookupC]
          rw [if_neg (fun hc => by rw [hc, hk2] at ht; exact Option.noConfusion ht)]
          exact ht

/-- **C2** — For every assignment store, ordered photo sequence, capacity and
caption prefix, the pre-render gap-fill assigns a photo to a coordinate only
when that coordinate has no photo in the store, and it changes no
pre-existing photo assignment or caption entry. -/
theorem gap_fill_frame (cap : Nat) (pfx : String) (photoSeq : List String)
    (photos captions : AList Coord String) (c : Coord) :
    (∀ p, lookupC c photos = some p →
      lookupC c (gapFill cap pfx photoSeq photos captions).1 = some p) ∧
    (∀ t, lookupC c captions = some t →
      lookupC c (gapFill cap pfx photoSeq photos captions).2 = some t) ∧
    (lookupC c (gapFill cap pfx photoSeq photos captions).1 ≠ lookupC c photos →
      lookupC c photos = none) := by
  have h := gapFold_preserves cap pfx (enumL photoSeq) (photos, captions) c
  refine ⟨h.1, h.2, ?_⟩
  intro hne
  cases hp : lookupC c photos with
  | none => rfl
  | some p => exact absurd (by rw [gapFill, h.1 p hp, hp]) hne

/-- Witness for C2: the claim's own scenario — a manual assignment `PhotoX`
with caption `"Custom"` at coordinate `(1,0)`, and an ordered photo sequence
of six photos whose fifth would also map to `(1,0)` under capacity 4 —
remains untouched by the gap-fill. -/
theorem gap_fill_frame_witness :
    lookupC ((1, 0) : Coord)
        (gapFill 4 "Photo" ["A", "B", "C", "D", "E", "F"]
          [(((1, 0) : Coord), "PhotoX")] [(((1, 0) : Coord), "Custom")]).1
      = some "PhotoX" ∧
    lookupC ((1, 0) : Coord)
        (gapFill 4 "Photo" ["A", "B", "C", "D", "E", "F"]
          [(((1, 0) : Coord), "PhotoX")] [(((1, 0) : Coord), "Custom")]).2
      = some "Custom" :=
  ⟨(gap_fill_frame 4 "Photo" ["A", "B", "C", "D", "E", "F"]
      [((1, 0), "PhotoX")] [((1, 0), "Custom")] (1, 0)).1 "PhotoX" (by decide),
   (gap_fill_frame 4 "Photo" ["A", "B", "C", "D", "E", "F"]
      [((1, 0), "PhotoX")] [((1, 0), "Custom")] (1, 0)).2.1 "Custom" (by decide)⟩

/-! ### Caption regeneration on prefix change
(`update_all_captions_with_prefix`, lines 461–482)

The program returns immediately when no photos are assigned; otherwise it
sorts all photo keys by page-then-slot order and overwrites the caption of
the key at sorted position `idx` with `f'{prefix} {idx + 1}'`, numbering
sequentially across page boundaries.  (The `except` fallback of the source
is dead code for the well-formed `"{page}_{slot}"` keys the program creates,
whose page/slot parts always parse.)  Dict assignment is embedded as a
key-shadowing cons. -/

def update_all_captions (pfx : String) (photos captions : AList Coord String) :
    AList Coord String :=
  if photos = [] then captions
  else
    (enumL (sortKeys (keysOf photos))).foldl
      (fun caps ik => (ik.2, pfx ++ " " ++ toString (ik.1 + 1)) :: caps)
      captions

theorem capFold_not_mem (pfx : String) {c : Coord} :
    ∀ (pairs : List (Nat × Coord)) (caps : AList Coord String),
      c ∉ pairs.map Prod.snd →
      lookupC c (pairs.foldl
        (fun caps ik => (ik.2, pfx ++ " " ++ toString (ik.1 + 1)) :: caps) caps)
        = lookupC c caps := by
  intro pairs
  induction pairs with
  | nil => intro caps _; rfl
  | cons ik rest ih =>
    intro caps hc
    simp only [List.map_cons, List.mem_cons] at hc
    rw [List.foldl_cons, ih _ (fun h => hc (Or.inr h))]
    simp only [lookupC]
    rw [if_neg (fun h => hc (Or.inl h))]

theorem capFold_lookup (pfx : String) {c : Coord} {i : Nat} :
    ∀ (pairs : List (Nat × Coord)) (caps : AList Coord String),
      (i, c) ∈ pairs → (pairs.map Prod.snd).Nodup →
      lookupC c (pairs.foldl
        (fun caps ik => (ik.2, pfx ++ " " ++ toString (ik.1 + 1)) :: caps) caps)
        = some (pfx ++ " " ++ toString (i + 1)) := by
  intro pairs
  induction pairs with
  | nil => intro caps h _; simp at h
  | cons jk rest ih =>
    intro caps hmem hnd
    simp only [List.map_cons, List.nodup_cons] at hnd
    rw [List.foldl_cons]
    rcases List.mem_cons.mp hmem with h | h
    · subst h
      rw [capFold_not_mem pfx rest _ hnd.1]
      simp [lookupC]
    · exact ih _ h hnd.2

/-- **C3** — For every non-empty assignment store (with distinct keys, as
Python dict keys are), applying a new caption prefix `pfx` overwrites the
caption of every coordinate holding a photo with `"pfx k"`, where `k` is the
coordinate's 1-based position in the page-then-slot ordering of all assigned
coordinates, numbering sequentially across page boundaries and discarding
any previous caption text; moreover the ordering used is exactly the sorted
(by `coordLe`, page then slot) permutation of the store's key set. -/
theorem update_all_captions_formula (pfx : String)
    (photos captions : AList Coord String) (c : Coord) (i : Nat)
    (hne : photos ≠ []) (hnd : (keysOf photos).Nodup)
    (hidx : (sortKeys (keysOf photos))[i]? = some c) :
    lookupC c (update_all_captions pfx photos captions)
        = some (pfx ++ " " ++ toString (i + 1)) ∧
    (sortKeys (keysOf photos)).Pairwise coordLe ∧
    (sortKeys (keysOf photos)).Perm (keysOf photos) := by
  refine ⟨?_, pairwise_sortKeys _, perm_sortKeys _⟩
  rw [update_all_captions, if_neg hne]
  apply capFold_lookup pfx (enumL (sortKeys (keysOf photos))) captions
  · have := mem_enumFromN_of_getElem? hidx 0
    simpa [enumL] using this
  · rw [enumL, map_snd_enumFromN]
    exact ((perm_sortKeys (keysOf photos)).nodup_iff).mpr hnd

/-- Witness for C3: the claim's scenario — 5 assigned photos, new prefix
`"Image"` — yields caption `"Image 5"` for the fifth coordinate `(1,0)` in
page-then-slot order (and the sort is an ordered permutation of the keys). -/
theorem update_all_captions_formula_witness :
    lookupC ((1, 0) : Coord)
        (update_all_captions "Image"
          [(((0, 0) : Coord), "a"), (((0, 1) : Coord), "b"), (((0, 2) : Coord), "c"),
            (((0, 3) : Coord), "d"), (((1, 0) : Coord), "e")]
          [(((0, 0) : Coord), "Photo 1")])
      = some "Image 5" :=
  ((update_all_captions_formula "Image"
      [((0, 0), "a"), ((0, 1), "b"), ((0, 2), "c"), ((0, 3), "d"), ((1, 0), "e")]
      [((0, 0), "Photo 1")] (1, 0) 4
      (by decide) (by decide) (by decide)).1).trans (by decide)

/-! ### Photo removal (`remove_photo_from_cell`, lines 484–523)

Confirming the dialog deletes the photo entry and (when present) the caption
entry at the cell's coordinate, and removes the photo path from the global
ordered photo list (guarded by `if photo_path in self.photos`).  When no
photo is assigned at the coordinate the operation does nothing. -/

def remove_photo_from_cell (key : Coord)
    (photos captions : AList Coord String) (photoSeq : List String) :
    AList Coord String × AList Coord String × List String :=
  match lookupC key photos with
  | none => (photos, captions, photoSeq)
  | some p => (eraseC key photos, eraseC key captions, removeFirst p photoSeq)

/-- Every photo entry produced by the gap-fill comes either from the input
store or from the input ordered photo sequence. -/
theorem gapFold_entries (cap : Nat) (pfx : String) :
    ∀ (pairs : List (Nat × String))
      (st : AList Coord String × AList Coord String) {kv : Coord × String},
      kv ∈ (pairs.foldl (gapStep cap pfx) st).1 →
      kv ∈ st.1 ∨ kv.2 ∈ pairs.map Prod.snd := by
  intro pairs
  induction pairs with
  | nil => intro st kv h; exact Or.inl h
  | cons ia rest ih =>
    intro st kv h
    rw [List.foldl_cons] at h
    rcases ih (gapStep cap pfx st ia) h with h' | h'
    · cases hk : lookupC (toCoordinate ia.1 cap) st.1 with
      | some q =>
        rw [gapStep] at h'
        rw [hk] at h'
        exact Or.inl h'
      | none =>
        rw [gapStep] at h'
        rw [hk] at h'
        simp only at h'
        rcases List.mem_cons.mp h' with h'' | h''
        · subst h''
          exact Or.inr (by simp)
        · exact Or.inl h''
    · exact Or.inr (by simp [h'])

/-- Every photo value placed by `change_layout` is a photo value of the
input store. -/
theorem change_layout_entries (newCap oldCap : Nat)
    (photos captions : AList Coord String) {kv : Coord × String}
    (h : kv ∈ (change_layout newCap oldCap photos captions).1) :
    kv.2 ∈ photos.map Prod.snd := by
  rw [change_layout] at h
  by_cases hcap : oldCap = newCap
  · rw [if_pos hcap] at h
    exact List.mem_map_of_mem Prod.snd h
  · rw [if_neg hcap] at h
    simp only at h
    rw [List.mem_map] at h
    obtain ⟨ip, hip, hkv⟩ := h
    have hsnd : ip.2 ∈ (sortKeys (keysOf photos)).filterMap
        (fun k => (lookupC k photos).map
          (fun p => (p, (lookupC k captions).getD ""))) := by
      rw [enumL] at hip
      exact snd_mem_of_mem_enumFromN hip
    rw [List.mem_filterMap] at hsnd
    obtain ⟨k, _, hk⟩ := hsnd
    rw [Option.map_eq_some'] at hk
    obtain ⟨p, hlk, hp⟩ := hk
    have : kv.2 = p := by
      rw [← hkv]
      simp only
      rw [← hp]
    rw [this]
    exact List.mem_map_of_mem Prod.snd (lookupC_mem hlk)

/-- **C8** — Removing the photo at a coordinate (at which it is the store's
unique entry holding that photo, with dict keys distinct and the ordered
photo sequence listing the photo at most once, as the program maintains)
deletes both its photo entry and its caption entry from the assignment store
and removes the photo from the ordered photo sequence; and no subsequent
layout reconciliation or pre-render gap-fill on the resulting state
reintroduces the removed photo into the store. -/
theorem remove_photo_permanence (key : Coord) (p : String)
    (photos captions : AList Coord String) (photoSeq : List String)
    (hph : lookupC key photos = some p)
    (huniq : ∀ kv ∈ photos, kv.2 = p → kv.1 = key)
    (hnd : (keysOf photos).Nodup) (hndc : (keysOf captions).Nodup)
    (hcount : photoSeq.count p ≤ 1) :
    (∀ c, lookupC c (remove_photo_from_cell key photos captions photoSeq).1
        ≠ some p) ∧
    lookupC key (remove_photo_from_cell key photos captions photoSeq).2.1
        = none ∧
    p ∉ (remove_photo_from_cell key photos captions photoSeq).2.2 ∧
    (∀ cap pfx c, lookupC c
        (gapFill cap pfx (remove_photo_from_cell key photos captions photoSeq).2.2
          (remove_photo_from_cell key photos captions photoSeq).1
          (remove_photo_from_cell key photos captions photoSeq).2.1).1
        ≠ some p) ∧
    (∀ newCap oldCap c, lookupC c
        (change_layout newCap oldCap
          (remove_photo_from_cell key photos captions photoSeq).1
          (remove_photo_from_cell key photos captions photoSeq).2.1).1
        ≠ some p) := by
  have hR : remove_photo_from_cell key photos captions photoSeq =
      (eraseC key photos, eraseC key captions, removeFirst p photoSeq) := by
    rw [remove_photo_from_cell, hph]
  rw [hR]
  have hgone : ∀ kv : Coord × String, kv ∈ eraseC key photos → kv.2 ≠ p := by
    intro kv hkv hp2
    have hmem := mem_of_mem_eraseC hkv
    have hk1 := huniq kv hmem hp2
    have : kv.1 ∉ keysOf (eraseC key photos) := by
      rw [hk1]
      exact not_mem_keys_eraseC hnd
    exact this (List.mem_map_of_mem Prod.fst hkv)
  have hseq : p ∉ removeFirst p photoSeq := not_mem_removeFirst hcount
  refine ⟨?_, lookupC_eraseC_self hndc, hseq, ?_, ?_⟩
  · intro c hc
    exact hgone _ (lookupC_mem hc) rfl
  · intro cap pfx c hc
    rcases gapFold_entries cap pfx (enumL (removeFirst p photoSeq))
        (eraseC key photos, eraseC key captions) (lookupC_mem hc) with h | h
    · exact hgone _ h rfl
    · rw [enumL, map_snd_enumFromN] at h
      exact hseq h
  · intro newCap oldCap c hc
    have h := change_layout_entries newCap oldCap
      (eraseC key photos) (eraseC key captions) (lookupC_mem hc)
    rw [List.mem_map] at h
    obtain ⟨kv, hkv, hp2⟩ := h
    exact hgone kv hkv hp2

/-- Witness for C8 at a concrete two-photo state: removing the photo
assigned at `(0,1)` leaves no trace of it in any later gap-fill or
reconciliation. -/
theorem remove_photo_permanence_witness :
    (∀ c, lookupC c (remove_photo_from_cell (0, 1)
        [(((0, 0) : Coord), "y"), (((0, 1) : Coord), "x")]
        [(((0, 1) : Coord), "Photo 2")] ["y", "x"]).1 ≠ some "x") ∧
    lookupC ((0, 1) : Coord) (remove_photo_from_cell (0, 1)
        [(((0, 0) : Coord), "y"), (((0, 1) : Coord), "x")]
        [(((0, 1) : Coord), "Photo 2")] ["y", "x"]).2.1 = none ∧
    "x" ∉ (remove_photo_from_cell (0, 1)
        [(((0, 0) : Coord), "y"), (((0, 1) : Coord), "x")]
        [(((0, 1) : Coord), "Photo 2")] ["y", "x"]).2.2 ∧
    lookupC ((0, 1) : Coord)
        (gapFill 4 "Photo"
          (remove_photo_from_cell (0, 1)
            [(((0, 0) : Coord), "y"), (((0, 1) : Coord), "x")]
            [(((0, 1) : Coord), "Photo 2")] ["y", "x"]).2.2
          (remove_photo_from_cell (0, 1)
            [(((0, 0) : Coord), "y"), (((0, 1) : Coord), "x")]
            [(((0, 1) : Coord), "Photo 2")] ["y", "x"]).1
          (remove_photo_from_cell (0, 1)
            [(((0, 0) : Coord), "y"), (((0, 1) : Coord), "x")]
            [(((0, 1) : Coord), "Photo 2")] ["y", "x"]).2.1).1 ≠ some "x" ∧
    lookupC ((0, 0) : Coord)
        (change_layout 2 4
          (remove_photo_from_cell (0, 1)
            [(((0, 0) : Coord), "y"), (((0, 1) : Coord), "x")]
            [(((0, 1) : Coord), "Photo 2")] ["y", "x"]).1
          (remove_photo_from_cell (0, 1)
            [(((0, 0) : Coord), "y"), (((0, 1) : Coord), "x")]
            [(((0, 1) : Coord), "Photo 2")] ["y", "x"]).2.1).1 ≠ some "x" :=
  have h := remove_photo_permanence (0, 1) "x"
    [((0, 0), "y"), ((0, 1), "x")] [((0, 1), "Photo 2")] ["y", "x"]
    (by decide) (by decide) (by decide) (by decide) (by decide)
  ⟨h.1, h.2.1, h.2.2.1, h.2.2.2.1 4 "Photo" (0, 1), h.2.2.2.2 2 4 (0, 0)⟩

/-! ### The document renderer (`generate_word_document`, lines 861–1080)

We model the rendered document body as a list of items: page sections and
explicit page breaks.  A page section carries the page index, the title
(from `page_titles.get(page_num, 'Title')`) and one rendered slot per
occupied slot of the page, in slot order.  A slot render carries the slot
index, its content — the embedded image, or, when `Image.open`/compression
fails for that path, the textual placeholder `'[Error: ' + basename + ']'`
of line 1038 — and the caption (the stored caption, or the computed default
`f'{prefix} {page*cap + slot + 1}'` of lines 1053–1060).  Whether decoding a
given path succeeds is an input of the model (`ok`), abstracting the
external image library.  Headers/footers and the fixed table geometry carry
no claim and are not modelled. -/

/-- Content of one rendered grid cell. -/
inductive CellContent : Type
  | image (path : String)
  | errorText (text : String)
deriving DecidableEq

/-- One rendered occupied slot. -/
structure SlotRender : Type where
  slot : Nat
  content : CellContent
  caption : String
deriving DecidableEq

/-- One rendered page section. -/
structure PageSection : Type where
  page : Nat
  title : String
  slots : List SlotRender
deriving DecidableEq

/-- An item of the rendered document body. -/
inductive DocItem : Type
  | section (s : PageSection)
  | pageBreak
deriving DecidableEq

/-- `os.path.basename` on the characters of a path: keep only what follows
the last `/`. -/
def baseNameChars (l : List Char) : List Char :=
  l.foldl (fun acc c => if c = '/' then [] else acc ++ [c]) []

/-- `os.path.basename`: the part of the path after the last `/`. -/
def baseName (s : String) : String := ⟨baseNameChars s.data⟩

/-- The page's occupied slots, as collected by lines 966–970:
`[(i, page_photos[f'{page}_{i}']) for i in range(cap) if assigned]`. -/
def pageList (cap : Nat) (photos : AList Coord String) (p : Nat) :
    List (Nat × String) :=
  (List.range cap).filterMap
    (fun i => (lookupC (p, i) photos).map (fun ph => (i, ph)))

/-- Rendering of one occupied slot (lines 1006–1065). -/
def renderSlot (cap : Nat) (pfx : String) (captions : AList Coord String)
    (ok : String → Bool) (p : Nat) (ip : Nat × String) : SlotRender :=
  { slot := ip.1
    content :=
      if ok ip.2 then .image ip.2
      else .errorText ("[Error: " ++ baseName ip.2 ++ "]")
    caption := (lookupC (p, ip.1) captions).getD
      (pfx ++ " " ++ toString (p * cap + ip.1 + 1)) }

/-- Rendering of one occupied page (lines 975–1065). -/
def mkSection (cap : Nat) (pfx : String) (titles : AList Nat String)
    (photos captions : AList Coord String) (ok : String → Bool) (p : Nat) :
    PageSection :=
  { page := p
    title := (lookupC p titles).getD "Title"
    slots := (pageList cap photos p).map (renderSlot cap pfx captions ok p) }

/-- `max(int(k.split('_')[0]) for k in page_keys)` (line 961); the store is
non-empty at this point, so the fold over its pages equals Python's `max`. -/
def maxPage (photos : AList Coord String) : Nat :=
  (photos.map (fun kv => kv.1.1)).foldl max 0

/-- What the loop body of lines 964–1073 emits for one value of `page_num`:
nothing for an unoccupied page (`continue`), otherwise the rendered section
followed by a page break unless this is the maximal page index. -/
def pageItems (cap : Nat) (pfx : String) (titles : AList Nat String)
    (photos captions : AList Coord String) (ok : String → Bool) (p : Nat) :
    List DocItem :=
  if (pageList cap photos p).isEmpty then []
  else
    DocItem.section (mkSection cap pfx titles photos captions ok p) ::
      (if p < maxPage photos then [DocItem.pageBreak] else [])

/-- `for page_num in range(n): …` — concatenation of the emitted items. -/
def renderLoop (g : Nat → List DocItem) : Nat → List DocItem
  | 0 => []
  | n + 1 => renderLoop g n ++ g n

/-- The whole page-rendering loop, `for page_num in range(max_page + 1)`. -/
def renderPages (cap : Nat) (pfx : String) (titles : AList Nat String)
    (photos captions : AList Coord String) (ok : String → Bool) : List DocItem :=
  renderLoop (pageItems cap pfx titles photos captions ok) (maxPage photos + 1)

/-- `generate_word_document`: distribute all photos to pages (gap-fill),
then either save an empty document (no page sections) when the store is
still empty, or render every occupied page.  Returns the document body
together with the final photo and caption stores. -/
def generate_word_document (cap : Nat) (pfx : String)
    (titles : AList Nat String) (photoSeq : List String)
    (photos captions : AList Coord String) (ok : String → Bool) :
    List DocItem × AList Coord String × AList Coord String :=
  let st := gapFill cap pfx photoSeq photos captions
  if st.1.isEmpty then ([], st.1, st.2)
  else (renderPages cap pfx titles st.1 st.2 ok, st.1, st.2)

/-- `save_word` (lines 775–782): the export command refuses when the ordered
photo sequence is empty (`show_message('No Photos', …); return`), producing
no document at all; otherwise it proceeds to `generate_word_document`. -/
def save_word (cap : Nat) (pfx : String) (titles : AList Nat String)
    (photoSeq : List String) (photos captions : AList Coord String)
    (ok : String → Bool) :
    Option (List DocItem × AList Coord String × AList Coord String) :=
  if photoSeq.isEmpty then none
  else some (generate_word_document cap pfx titles photoSeq photos captions ok)

/-! ### Page structure of the rendered document (C5) -/

theorem le_foldl_max : ∀ (l : List Nat) (a : Nat), a ≤ l.foldl max a := by
  intro l
  induction l with
  | nil => intro a; exact Nat.le_refl a
  | cons b t ih =>
    intro a
    rw [List.foldl_cons]
    exact Nat.le_trans (Nat.le_max_left a b) (ih (max a b))

theorem foldl_max_le {x : Nat} :
    ∀ (l : List Nat) (a : Nat), x ∈ l → x ≤ l.foldl max a := by
  intro l
  induction l with
  | nil => intro a h; simp at h
  | cons b t ih =>
    intro a h
    rw [List.foldl_cons]
    rcases List.mem_cons.mp h with h | h
    · subst h
      exact Nat.le_trans (Nat.le_max_right a x) (le_foldl_max t (max a x))
    · exact ih (max a b) h

theorem foldl_max_mem :
    ∀ (l : List Nat) (a : Nat), l.foldl max a = a ∨ l.foldl max a ∈ l := by
  intro l
  induction l with
  | nil => intro a; exact Or.inl rfl
  | cons b t ih =>
    intro a
    rw [List.foldl_cons]
    rcases ih (max a b) with h | h
    · rcases Nat.le_total a b with hab | hab
      · right
        rw [h, Nat.max_eq_right hab]
        exact List.mem_cons_self b t
      · left
        rw [h, Nat.max_eq_left hab]
    · exact Or.inr (List.mem_cons_of_mem _ h)

theorem page_le_maxPage {photos : AList Coord String} {kv : Coord × String}
    (h : kv ∈ photos) : kv.1.1 ≤ maxPage photos := by
  unfold maxPage
  exact foldl_max_le _ 0 (List.mem_map_of_mem (fun kv => kv.1.1) h)

theorem maxPage_mem {photos : AList Coord String} (hne : photos ≠ []) :
    ∃ kv ∈ photos, kv.1.1 = maxPage photos := by
  rcases foldl_max_mem (photos.map (fun kv => kv.1.1)) 0 with h | h
  · obtain ⟨kv, t, rfl⟩ := List.exists_cons_of_ne_nil hne
    refine ⟨kv, by simp, ?_⟩
    have hle := page_le_maxPage (List.mem_cons_self kv t)
    have hz : maxPage (kv :: t) = 0 := h
    omega
  · rw [List.mem_map] at h
    obtain ⟨kv, hkv, hp⟩ := h
    exact ⟨kv, hkv, hp⟩

theorem mem_pageList {cap p s : Nat} {photos : AList Coord String} {w : String}
    (hs : s < cap) (hlk : lookupC (p, s) photos = some w) :
    (s, w) ∈ pageList cap photos p := by
  rw [pageList, List.mem_filterMap]
  exact ⟨s, List.mem_range.mpr hs, by rw [hlk]; rfl⟩

theorem maxPage_occupied {cap : Nat} {photos : AList Coord String}
    (hne : photos ≠ []) (hslot : ∀ kv ∈ photos, kv.1.2 < cap) :
    ¬(pageList cap photos (maxPage photos)).isEmpty := by
  obtain ⟨⟨⟨p, s⟩, v⟩, hkv, hp⟩ := maxPage_mem hne
  simp only at hp
  subst hp
  obtain ⟨w, hw⟩ := lookupC_isSome_of_mem hkv
  have hmem := mem_pageList (hslot _ hkv) hw
  rw [List.isEmpty_iff]
  exact List.ne_nil_of_mem hmem

theorem occupied_le_maxPage {cap p : Nat} {photos : AList Coord String}
    (h : ¬(pageList cap photos p).isEmpty) : p ≤ maxPage photos := by
  rw [List.isEmpty_iff] at h
  obtain ⟨⟨i, ph⟩, t, ht⟩ := List.exists_cons_of_ne_nil h
  have hmem : (i, ph) ∈ pageList cap photos p := by rw [ht]; simp
  rw [pageList, List.mem_filterMap] at hmem
  obtain ⟨j, _, hj⟩ := hmem
  rw [Option.map_eq_some'] at hj
  obtain ⟨w, hw, hjw⟩ := hj
  have hij : j = i := by simpa using congrArg Prod.fst hjw
  subst hij
  exact page_le_maxPage (lookupC_mem hw)

theorem renderLoop_below (cap : Nat) (pfx : String) (titles : AList Nat String)
    (photos captions : AList Coord String) (ok : String → Bool) :
    ∀ (n : Nat), n ≤ maxPage photos →
      renderLoop (pageItems cap pfx titles photos captions ok) n =
        ((List.range n).filter (fun p => !(pageList cap photos p).isEmpty)).flatMap
          (fun p =>
            [DocItem.section (mkSection cap pfx titles photos captions ok p),
              DocItem.pageBreak]) := by
  intro n hn
  induction n with
  | zero => rfl
  | succ k ih =>
    rw [renderLoop, ih (by omega), List.range_succ, List.filter_append,
      List.flatMap_append]
    congr 1
    simp only [List.filter_cons, List.filter_nil]
    cases hocc : (pageList cap photos k).isEmpty with
    | true => simp [pageItems, hocc]
    | false =>
      have hk : k < maxPage photos := by omega
      simp [pageItems, hocc, hk]

theorem intersperse_snoc {α β : Type} (b : β) (s : α → β) (x : α) :
    ∀ (l : List α),
      List.intersperse b (l.map s ++ [s x]) =
        l.flatMap (fun p => [s p, b]) ++ [s x] := by
  intro l
  induction l with
  | nil => simp
  | cons a t ih =>
    obtain ⟨y, ys, hy⟩ : ∃ y ys, t.map s ++ [s x] = y :: ys := by
      cases t <;> exact ⟨_, _, rfl⟩
    rw [List.map_cons, List.cons_append, hy, List.intersperse_cons_cons,
      ← hy, ih, List.flatMap_cons]
    rfl

/-- **C5** — For every non-empty assignment store (whose coordinates respect
the current capacity, the invariant of §3 of the spec), the rendered
document body is exactly the ascending-page-index list of one section per
occupied page index, interspersed with single explicit page breaks: a break
between consecutive sections and none after the last.  Each section renders
only its occupied slots, so unoccupied slots on the last page contribute no
content. -/
theorem render_page_sections (cap : Nat) (pfx : String)
    (titles : AList Nat String) (photos captions : AList Coord String)
    (ok : String → Bool) (hne : photos ≠ [])
    (hslot : ∀ kv ∈ photos, kv.1.2 < cap) :
    renderPages cap pfx titles photos captions ok =
      List.intersperse DocItem.pageBreak
        (((List.range (maxPage photos + 1)).filter
            (fun p => !(pageList cap photos p).isEmpty)).map
          (fun p => DocItem.section (mkSection cap pfx titles photos captions ok p))) := by
  have hocc := maxPage_occupied hne hslot
  rw [renderPages, renderLoop,
    renderLoop_below cap pfx titles photos captions ok (maxPage photos) (Nat.le_refl _),
    List.range_succ, List.filter_append]
  have hfilter : List.filter (fun p => !(pageList cap photos p).isEmpty)
      [maxPage photos] = [maxPage photos] := by
    simp only [List.filter_cons, List.filter_nil]
    rw [if_pos (by simpa using hocc)]
  rw [hfilter, List.map_append, List.map_cons, List.map_nil,
    intersperse_snoc DocItem.pageBreak _ (maxPage photos)]
  congr 1
  rw [pageItems, if_neg hocc, if_neg (Nat.lt_irrefl _)]

/-- Witness for C5: the claim's scenario — 5 photos under the 2×2 layout —
renders 2 page sections (4 photos, then 1 photo) with a page break only
between them. -/
theorem render_page_sections_witness :
    renderPages 4 "Photo" []
        [(((0, 0) : Coord), "p1"), (((0, 1) : Coord), "p2"), (((0, 2) : Coord), "p3"),
          (((0, 3) : Coord), "p4"), (((1, 0) : Coord), "p5")]
        [] (fun _ => true) =
      List.intersperse DocItem.pageBreak
        (((List.range (maxPage
              [(((0, 0) : Coord), "p1"), (((0, 1) : Coord), "p2"), (((0, 2) : Coord), "p3"),
                (((0, 3) : Coord), "p4"), (((1, 0) : Coord), "p5")] + 1)).filter
            (fun p => !(pageList 4
              [(((0, 0) : Coord), "p1"), (((0, 1) : Coord), "p2"), (((0, 2) : Coord), "p3"),
                (((0, 3) : Coord), "p4"), (((1, 0) : Coord), "p5")] p).isEmpty)).map
          (fun p => DocItem.section (mkSection 4 "Photo" []
            [(((0, 0) : Coord), "p1"), (((0, 1) : Coord), "p2"), (((0, 2) : Coord), "p3"),
              (((0, 3) : Coord), "p4"), (((1, 0) : Coord), "p5")] [] (fun _ => true) p))) :=
  render_page_sections 4 "Photo" []
    [((0, 0), "p1"), ((0, 1), "p2"), ((0, 2), "p3"), ((0, 3), "p4"), ((1, 0), "p5")]
    [] (fun _ => true) (by decide) (by decide)

/-! ### Per-photo failure isolation (C6) -/

/-- The structural skeleton of a document item: page index and slot indices,
with slot contents and captions erased (`none` marks a page break). -/
def itemSkeleton : DocItem → Option (Nat × List Nat)
  | .pageBreak => none
  | .section s => some (s.page, s.slots.map (fun sl => sl.slot))

/-- The structural skeleton of a document body. -/
def docSkeleton (d : List DocItem) : List (Option (Nat × List Nat)) :=
  d.map itemSkeleton

theorem docSkeleton_append (d₁ d₂ : List DocItem) :
    docSkeleton (d₁ ++ d₂) = docSkeleton d₁ ++ docSkeleton d₂ :=
  List.map_append itemSkeleton d₁ d₂

theorem docSkeleton_pageItems (cap : Nat) (pfx pfx' : String)
    (titles titles' : AList Nat String) (photos captions captions' : AList Coord String)
    (ok ok' : String → Bool) (p : Nat) :
    docSkeleton (pageItems cap pfx titles photos captions ok p) =
      docSkeleton (pageItems cap pfx' titles' photos captions' ok' p) := by
  rw [pageItems, pageItems]
  cases hocc : (pageList cap photos p).isEmpty with
  | true => simp [hocc]
  | false =>
    simp only [hocc, Bool.false_eq_true, if_false, docSkeleton, List.map_cons,
      itemSkeleton, mkSection, List.map_map]
    rfl

/-- **C6 (amended)** — If decoding or embedding a photo's image fails during
rendering, the renderer places the textual placeholder `"[Error: <name>]"`
(with `<name>` the basename of the photo path, line 1038 of the source — not
the spec's wording `"image unavailable: <name>"`) in that slot, renders every
successfully decoded photo as an embedded image, and the page/slot structure
of the rendered document is completely independent of which photos fail: a
single bad image never aborts or shortens the document. -/
theorem image_failure_isolation (cap : Nat) (pfx : String)
    (titles : AList Nat String) (photos captions : AList Coord String)
    (ok ok' : String → Bool) :
    docSkeleton (renderPages cap pfx titles photos captions ok) =
      docSkeleton (renderPages cap pfx titles photos captions ok') ∧
    (∀ p ip, ok ip.2 = false →
      (renderSlot cap pfx captions ok p ip).content =
        .errorText ("[Error: " ++ baseName ip.2 ++ "]")) ∧
    (∀ p ip, ok ip.2 = true →
      (renderSlot cap pfx captions ok p ip).content = .image ip.2) := by
  refine ⟨?_, ?_, ?_⟩
  · rw [renderPages, renderPages]
    induction maxPage photos + 1 with
    | zero => rfl
    | succ n ih =>
      rw [renderLoop, renderLoop, docSkeleton_append, docSkeleton_append, ih,
        docSkeleton_pageItems cap pfx pfx titles titles photos captions captions ok ok' n]
  · intro p ip h
    rw [renderSlot]
    simp [h]
  · intro p ip h
    rw [renderSlot]
    simp [h]

/-- Witness for C6 (amended): a page of 4 photos where only `"c"` fails to
decode keeps its full 4-slot structure and renders the placeholder for
`"c"`. -/
theorem image_failure_isolation_witness :
    docSkeleton (renderPages 4 "Photo" []
        [(((0, 0) : Coord), "a"), (((0, 1) : Coord), "b"), (((0, 2) : Coord), "c"),
          (((0, 3) : Coord), "d")]
        [] (fun s => decide (s ≠ "c"))) =
      docSkeleton (renderPages 4 "Photo" []
        [(((0, 0) : Coord), "a"), (((0, 1) : Coord), "b"), (((0, 2) : Coord), "c"),
          (((0, 3) : Coord), "d")]
        [] (fun _ => true)) ∧
    (renderSlot 4 "Photo" [] (fun s => decide (s ≠ "c")) 0 (2, "c")).content =
      .errorText ("[Error: " ++ baseName "c" ++ "]") ∧
    (renderSlot 4 "Photo" [] (fun s => decide (s ≠ "c")) 0 (0, "a")).content =
      .image "a" :=
  have h := image_failure_isolation 4 "Photo" []
    [((0, 0), "a"), ((0, 1), "b"), ((0, 2), "c"), ((0, 3), "d")] []
    (fun s => decide (s ≠ "c")) (fun _ => true)
  ⟨h.1, h.2.1 0 (2, "c") (by decide), h.2.2 0 (0, "a") (by decide)⟩

/-- **C6 (counterexample)** — the claim as stated fails on the placeholder
text: a page of photos `a b c d` where `"c"` fails renders the placeholder
`"[Error: c]"`, and no slot of the whole rendered document carries the
spec's text `"image unavailable: c"`. -/
theorem image_failure_placeholder_counterexample :
    (renderPages 4 "Photo" []
        [(((0, 0) : Coord), "a"), (((0, 1) : Coord), "b"), (((0, 2) : Coord), "c"),
          (((0, 3) : Coord), "d")]
        [] (fun s => decide (s ≠ "c"))) =
      [DocItem.section
        { page := 0, title := "Title"
          slots :=
            [ { slot := 0, content := .image "a", caption := "Photo 1" },
              { slot := 1, content := .image "b", caption := "Photo 2" },
              { slot := 2, content := .errorText "[Error: c]", caption := "Photo 3" },
              { slot := 3, content := .image "d", caption := "Photo 4" } ] }] ∧
    (renderPages 4 "Photo" []
        [(((0, 0) : Coord), "a"), (((0, 1) : Coord), "b"), (((0, 2) : Coord), "c"),
          (((0, 3) : Coord), "d")]
        [] (fun s => decide (s ≠ "c"))).all
      (fun it =>
        match it with
        | DocItem.pageBreak => true
        | DocItem.section ps =>
          ps.slots.all
            (fun sl => decide (sl.content ≠ .errorText "image unavailable: c")))
      = true := by
  constructor
  · decide
  · decide

/-! ### Empty-state export (C7) -/

/-- **C7 (amended)** — With no photos assigned anywhere (empty ordered photo
sequence and empty assignment store), the document generator produces a
valid, empty document — an empty body, saved without error — while the
user-facing export command `save_word` refuses to export at all (it shows a
"No Photos" message and returns before generating anything). -/
theorem empty_state_export (cap : Nat) (pfx : String)
    (titles : AList Nat String) (ok : String → Bool) :
    generate_word_document cap pfx titles [] [] [] ok = ([], [], []) ∧
    save_word cap pfx titles [] [] [] ok = none := by
  constructor
  · rfl
  · rfl

/-- **C7 (counterexample)** — the claim as stated fails: invoking the export
operation (`save_word`, the save command) on the empty state produces no
document at all, rather than a valid empty document. -/
theorem empty_state_export_counterexample :
    save_word 4 "Photo" [] [] [] [] (fun _ => true) = none ∧
    (∀ doc, save_word 4 "Photo" [] [] [] [] (fun _ => true) ≠ some doc) := by
  exact ⟨rfl, fun doc h => Option.noConfusion h⟩

/-! ### Image compression (`compress_image`, lines 1082–1096, C9)

`compress_image` opens the image, converts `RGBA`/`LA`/`P` modes to `RGB`,
calls `img.thumbnail((1600, 1600), LANCZOS)` and re-encodes as JPEG at
quality 92.  The decoding/resampling/encoding themselves are the external
image library.  Modelled from the spec: the image library capability
(`Image.open`, `Image.convert`, `Image.thumbnail`, JPEG `save`) is not part
of this repository; an image is modelled by its color mode and pixel
dimensions, and `thumbnail` by its documented contract — an aspect-ratio
preserving, floor-rounded downscale onto the bounding box that never
enlarges and leaves images already within the bound untouched. -/

/-- A decoded image: color mode and pixel dimensions. -/
structure PILImage : Type where
  mode : String
  width : Nat
  height : Nat
deriving DecidableEq

/-- The compressor's output: color mode, final dimensions, and the fixed
re-encoding parameters. -/
structure JpegOutput : Type where
  mode : String
  width : Nat
  height : Nat
  fmt : String
  quality : Nat
deriving DecidableEq

/-- Modelled from the spec: `PIL.Image.thumbnail((maxW, maxH))`, the
external library's aspect-preserving bounded downscale (no enlargement; an
image already within the bound is unchanged; otherwise the binding
dimension is set to its bound and the other scaled proportionally, rounding
down). -/
def thumbnailDims (w h maxW maxH : Nat) : Nat × Nat :=
  if w ≤ maxW ∧ h ≤ maxH then (w, h)
  else if h * maxW ≤ w * maxH then (maxW, h * maxW / w)
  else (w * maxH / h, maxH)

/-- `compress_image`: normalize alpha/palette modes to `RGB`, bound the
dimensions by `(1600, 1600)`, re-encode as JPEG at quality 92. -/
def compress_image (img : PILImage) : JpegOutput :=
  let m := if img.mode = "RGBA" ∨ img.mode = "LA" ∨ img.mode = "P"
    then "RGB" else img.mode
  let wh := thumbnailDims img.width img.height 1600 1600
  { mode := m, width := wh.1, height := wh.2, fmt := "JPEG", quality := 92 }

theorem thumbnailDims_spec {w h : Nat} (hw : 0 < w) (hh : 0 < h) :
    (thumbnailDims w h 1600 1600).1 ≤ 1600 ∧
    (thumbnailDims w h 1600 1600).2 ≤ 1600 ∧
    (thumbnailDims w h 1600 1600).1 ≤ w ∧
    (thumbnailDims w h 1600 1600).2 ≤ h ∧
    (w ≤ 1600 ∧ h ≤ 1600 → thumbnailDims w h 1600 1600 = (w, h)) ∧
    (thumbnailDims w h 1600 1600).1 * h ≤ w * ((thumbnailDims w h 1600 1600).2 + 1) ∧
    (thumbnailDims w h 1600 1600).2 * w ≤ h * ((thumbnailDims w h 1600 1600).1 + 1) := by
  rw [thumbnailDims]
  by_cases hin : w ≤ 1600 ∧ h ≤ 1600
  · rw [if_pos hin]
    refine ⟨hin.1, hin.2, Nat.le_refl w, Nat.le_refl h, fun _ => rfl, ?_, ?_⟩
    · show w * h ≤ w * (h + 1)
      calc w * h ≤ w * h + w := Nat.le_add_right _ _
        _ = w * (h + 1) := by ring
    · show h * w ≤ h * (w + 1)
      calc h * w ≤ h * w + h := Nat.le_add_right _ _
        _ = h * (w + 1) := by ring
  · rw [if_neg hin]
    by_cases hwide : h * 1600 ≤ w * 1600
    · rw [if_pos hwide]
      have hhw : h ≤ w := Nat.le_of_mul_le_mul_right hwide (by omega)
      have hwgt : 1600 < w := by omega
      refine ⟨Nat.le_refl 1600, ?_, by omega, ?_, fun hcon => absurd hcon hin, ?_, ?_⟩
      · show h * 1600 / w ≤ 1600
        have h1 : h * 1600 / w ≤ w * 1600 / w := Nat.div_le_div_right hwide
        have h2 : w * 1600 / w = 1600 := by
          rw [Nat.mul_comm]
          exact Nat.mul_div_cancel 1600 (by omega)
        omega
      · show h * 1600 / w ≤ h
        have h1 : h * 1600 ≤ h * w := Nat.mul_le_mul_left h (by omega)
        have h2 : h * 1600 / w ≤ h * w / w := Nat.div_le_div_right h1
        have h3 : h * w / w = h := Nat.mul_div_cancel h (by omega)
        omega
      · show 1600 * h ≤ w * (h * 1600 / w + 1)
        have hq := Nat.div_add_mod (h * 1600) w
        have hr : h * 1600 % w < w := Nat.mod_lt _ (by omega)
        have hexp : w * (h * 1600 / w + 1) = w * (h * 1600 / w) + w := by ring
        omega
      · show h * 1600 / w * w ≤ h * (1600 + 1)
        have h1 : h * 1600 / w * w ≤ h * 1600 := Nat.div_mul_le_self _ _
        have h2 : h * (1600 + 1) = h * 1600 + h := by ring
        omega
    · rw [if_neg hwide]
      have hwh : w < h := by
        have := Nat.lt_of_mul_lt_mul_right (Nat.lt_of_not_le hwide)
        omega
      have hhgt : 1600 < h := by omega
      refine ⟨?_, Nat.le_refl 1600, ?_, by omega, fun hcon => absurd hcon hin, ?_, ?_⟩
      · show w * 1600 / h ≤ 1600
        have h1 : w * 1600 ≤ h * 1600 := by omega
        have h2 : w * 1600 / h ≤ h * 1600 / h := Nat.div_le_div_right h1
        have h3 : h * 1600 / h = 1600 := by
          rw [Nat.mul_comm]
          exact Nat.mul_div_cancel 1600 (by omega)
        omega
      · show w * 1600 / h ≤ w
        have h1 : w * 1600 ≤ w * h := Nat.mul_le_mul_left w (by omega)
        have h2 : w * 1600 / h ≤ w * h / h := Nat.div_le_div_right h1
        have h3 : w * h / h = w := Nat.mul_div_cancel w (by omega)
        omega
      · show w * 1600 / h * h ≤ w * (1600 + 1)
        have h1 : w * 1600 / h * h ≤ w * 1600 := Nat.div_mul_le_self _ _
        have h2 : w * (1600 + 1) = w * 1600 + w := by ring
        omega
      · show 1600 * w ≤ h * (w * 1600 / h + 1)
        have hq := Nat.div_add_mod (w * 1600) h
        have hr : w * 1600 % h < h := Nat.mod_lt _ (by omega)
        have hexp : h * (w * 1600 / h + 1) = h * (w * 1600 / h) + h := by ring
        omega

/-- **C9** — For every decodable input image (with positive pixel
dimensions), the compressor converts the alpha/palette modes `RGBA`, `LA`,
`P` to the direct-color model `RGB` (leaving other modes unchanged),
downsamples aspect-preservingly (up to integer rounding: the two-sided
cross-multiplied bound below) so that neither output dimension exceeds the
fixed 1600-pixel bound, never upscales — an image already within the bound
keeps its exact dimensions — and re-encodes as JPEG at the fixed quality
target 92.  `compress_image` is a pure function of the decoded image and
these constants, hence deterministic on identical input bytes. -/
theorem compress_image_spec (img : PILImage)
    (hw : 0 < img.width) (hh : 0 < img.height) :
    (img.mode = "RGBA" ∨ img.mode = "LA" ∨ img.mode = "P" →
      (compress_image img).mode = "RGB") ∧
    (¬(img.mode = "RGBA" ∨ img.mode = "LA" ∨ img.mode = "P") →
      (compress_image img).mode = img.mode) ∧
    (compress_image img).width ≤ 1600 ∧
    (compress_image img).height ≤ 1600 ∧
    (compress_image img).width ≤ img.width ∧
    (compress_image img).height ≤ img.height ∧
    (img.width ≤ 1600 ∧ img.height ≤ 1600 →
      (compress_image img).width = img.width ∧
      (compress_image img).height = img.height) ∧
    (compress_image img).fmt = "JPEG" ∧
    (compress_image img).quality = 92 ∧
    (compress_image img).width * img.height ≤
      img.width * ((compress_image img).height + 1) ∧
    (compress_image img).height * img.width ≤
      img.height * ((compress_image img).width + 1) := by
  have hspec := thumbnailDims_spec hw hh
  obtain ⟨h1, h2, h3, h4, h5, h6, h7⟩ := hspec
  refine ⟨?_, ?_, h1, h2, h3, h4, ?_, rfl, rfl, h6, h7⟩
  · intro hm
    rw [compress_image]
    simp only [if_pos hm]
  · intro hm
    rw [compress_image]
    simp only [if_neg hm]
  · intro hin
    have := h5 hin
    constructor
    · show (thumbnailDims img.width img.height 1600 1600).1 = img.width
      rw [this]
    · show (thumbnailDims img.width img.height 1600 1600).2 = img.height
      rw [this]

/-- Witness for C9: a 3200×1600 `RGBA` image compresses to a 1600×800 `RGB`
JPEG at quality 92. -/
theorem compress_image_spec_witness :
    (compress_image ⟨"RGBA", 3200, 1600⟩).mode = "RGB" ∧
    (compress_image ⟨"RGBA", 3200, 1600⟩).width ≤ 1600 ∧
    (compress_image ⟨"RGBA", 3200, 1600⟩).fmt = "JPEG" ∧
    (compress_image ⟨"RGBA", 3200, 1600⟩).quality = 92 ∧
    compress_image ⟨"RGBA", 3200, 1600⟩ = ⟨"RGB", 1600, 800, "JPEG", 92⟩ :=
  have h := compress_image_spec ⟨"RGBA", 3200, 1600⟩ (by decide) (by decide)
  ⟨h.1 (by decide), h.2.2.1, h.2.2.2.2.2.2.2.1, h.2.2.2.2.2.2.2.2.1, by decide⟩

/-! ### Settings load (`load_settings`, lines 1132–1166, and
`save_settings`, lines 1110–1130; C10)

`__init__` defaults to layout `'2x2'` with 4 photos per page.  When the
settings file exists, `load_settings` reads
`settings.get('grid_layout', '2x2')`, coerces a stored `'2x1'` to `'2x2'`,
and then sets `photos_per_page` to 2 exactly when the (coerced) value is
`'2x1'`, else 4.  A missing file (or a parse failure caught by the
`except`) leaves the `__init__` defaults in place.  The layout-mode enum of
the spec is decided everywhere in the program by the single test
`== '2x1'`. -/

/-- The layout-relevant slice of the application state. -/
structure LayoutState : Type where
  grid_layout_type : String
  photos_per_page : Nat
deriving DecidableEq

/-- The spec's Layout Mode enum. -/
inductive LayoutMode : Type
  | TwoByOne
  | TwoByTwo
deriving DecidableEq

/-- How every dispatch site of the program (`change_layout`,
`generate_word_document`, `load_settings`) reads the layout string: `'2x1'`
means the two-cell layout, anything else the 2×2 layout. -/
def layoutMode (s : String) : LayoutMode :=
  if s = "2x1" then LayoutMode.TwoByOne else LayoutMode.TwoByTwo

/-- The `__init__` defaults (lines 123–124). -/
def initLayoutState : LayoutState := ⟨"2x2", 4⟩

/-- `load_settings`, restricted to the layout fields.  The argument is
`none` for a missing (or unreadable) settings file, and `some g` for a
present file whose `grid_layout` key holds `g` (itself `none` when the key
is absent — a partially populated file). -/
def load_settings (file : Option (Option String)) (s : LayoutState) :
    LayoutState :=
  match file with
  | none => s
  | some gridVal =>
    let g0 := gridVal.getD "2x2"
    let g1 := if g0 = "2x1" then "2x2" else g0
    { grid_layout_type := g1
      photos_per_page := if g1 = "2x1" then 2 else 4 }

/-- `save_settings` writes `'grid_layout': self.grid_layout_type`. -/
def save_grid_layout (s : LayoutState) : String := s.grid_layout_type

/-- **C10** — For every settings file (present, missing, or partially
populated), after loading settings the layout mode is always `TwoByTwo`
with page capacity 4: a stored layout value `'2x1'` is coerced to `'2x2'`
during load, so the 2×1 layout mode never survives a save-then-load round
trip of the persisted configuration. -/
theorem load_settings_layout (file : Option (Option String)) (s : LayoutState) :
    layoutMode (load_settings file initLayoutState).grid_layout_type =
        LayoutMode.TwoByTwo ∧
    (load_settings file initLayoutState).photos_per_page = 4 ∧
    load_settings (some (some "2x1")) initLayoutState = ⟨"2x2", 4⟩ ∧
    (load_settings (some (some (save_grid_layout s)))
        initLayoutState).grid_layout_type ≠ "2x1" := by
  refine ⟨?_, ?_, rfl, ?_⟩
  · match file with
    | none => rfl
    | some gridVal =>
      simp only [load_settings]
      by_cases hg : gridVal.getD "2x2" = "2x1"
      · simp [layoutMode, hg]
      · simp [layoutMode, hg]
  · match file with
    | none => rfl
    | some gridVal =>
      simp only [load_settings]
      by_cases hg : gridVal.getD "2x2" = "2x1"
      · simp [hg]
      · simp [hg]
  · by_cases hg : s.grid_layout_type = "2x1"
    · simp only [load_settings, save_grid_layout, Option.getD_some, hg]
      decide
    · simp only [load_settings, save_grid_layout, Option.getD_some, if_neg hg]
      exact hg

end PhotoGrid
